import Mathlib

/-!
Verification of the search-query filter detector of `pkg/github/search_utils.go`:
the two scanners `hasFilter` and `hasSpecificFilter`.

Go strings are byte sequences, and the scanners inspect single bytes
(`rune(query[i])` casts one byte to a code point), so queries, filter types and
filter values are modelled as lists of byte values (`List Nat`).  The character
classifiers below reproduce Go's `unicode.IsSpace`, `unicode.IsLetter` and
`unicode.IsDigit` restricted to the Latin-1 range `0..255`, which is the only
range a single byte cast to a rune can produce.
-/

namespace SearchUtils

/-- Byte strings: the model of Go `string` values. -/
abbrev ByteStr := List Nat

/-- Model of Go `unicode.IsSpace` on code points `0..255`:
`\t \n \v \f \r`, space, NEL `U+0085` and NBSP `U+00A0`. -/
def isSpaceB (b : Nat) : Bool :=
  b == 9 || b == 10 || b == 11 || b == 12 || b == 13 || b == 32 || b == 133 || b == 160

/-- Model of Go `unicode.IsLetter` on code points `0..255` (the Latin-1 letters). -/
def isLetterB (b : Nat) : Bool :=
  decide (65 ≤ b ∧ b ≤ 90) || decide (97 ≤ b ∧ b ≤ 122) ||
  b == 170 || b == 181 || b == 186 ||
  decide (192 ≤ b ∧ b ≤ 214) || decide (216 ≤ b ∧ b ≤ 246) || decide (248 ≤ b ∧ b ≤ 255)

/-- Model of Go `unicode.IsDigit` on code points `0..255`: the ASCII digits. -/
def isDigitB (b : Nat) : Bool :=
  decide (48 ≤ b ∧ b ≤ 57)

/-- Word byte: letter, digit or underscore (`95`).  The Go source writes this
negated, as `!unicode.IsLetter(c) && !unicode.IsDigit(c) && c != '_'`. -/
def isWordB (b : Nat) : Bool :=
  isLetterB b || isDigitB b || b == 95

/-- Per-occurrence test of `hasFilter` (search_utils.go lines 36-51), for an
occurrence of the length-`L` prefix at byte index `idx`: at start of string the
occurrence only needs a following non-whitespace byte; otherwise the preceding
byte must be whitespace or a non-word byte, and a following non-whitespace byte
is required as well. -/
def filterOccValid (q : ByteStr) (L idx : Nat) : Bool :=
  if idx == 0 then
    decide (idx + L < q.length) && !isSpaceB (q.getD (idx + L) 0)
  else
    let prevChar := q.getD (idx - 1) 0
    if isSpaceB prevChar || (!isLetterB prevChar && !isDigitB prevChar && prevChar != 95) then
      decide (idx + L < q.length) && !isSpaceB (q.getD (idx + L) 0)
    else
      false

/-- Per-occurrence test of `hasSpecificFilter` (search_utils.go lines 85-102),
for an occurrence of the length-`L` target at byte index `idx`: valid start
(index 0, or preceded by whitespace or a non-word byte) and valid end (end of
string, or followed by whitespace or a non-word byte). -/
def specificOccValid (q : ByteStr) (L idx : Nat) : Bool :=
  let validStart :=
    if idx == 0 then true
    else
      let prevChar := q.getD (idx - 1) 0
      isSpaceB prevChar || (!isLetterB prevChar && !isDigitB prevChar && prevChar != 95)
  if validStart then
    if idx + L == q.length then true
    else
      let nextChar := q.getD (idx + L) 0
      isSpaceB nextChar || (!isLetterB nextChar && !isDigitB nextChar && nextChar != 95)
  else
    false

/-- Model of Go `strings.Index(s, pat)`: the index of the first occurrence of
`pat` in `s`, with `none` standing for Go's `-1`. -/
def strIndex (pat : ByteStr) : ByteStr → Option Nat
  | [] => if pat.isPrefixOf ([] : ByteStr) then some 0 else none
  | b :: rest =>
    if pat.isPrefixOf (b :: rest) then some 0
    else (strIndex pat rest).map (· + 1)

/-- The occurrence-scanning loop shared by `hasFilter` (lines 32-59) and
`hasSpecificFilter` (lines 79-110) of search_utils.go.  Starting from an
occurrence of `pat` at `idx`, it tests the occurrence with `validAt`, then
resumes the search `pat.length` bytes further on
(`remaining := query[idx+len(pat):]`; `idx = idx + len(pat) + nextIdx`).
The Go loop has no fuel parameter; `fuel` bounds the number of iterations,
and the fuel-irrelevance theorems below show that any `fuel > query.length`
yields the value the Go loop terminates with. -/
def scanLoop (q pat : ByteStr) (validAt : Nat → Bool) : Nat → Nat → Bool
  | 0, _ => false
  | fuel + 1, idx =>
    if validAt idx then true
    else
      match strIndex pat (q.drop (idx + pat.length)) with
      | none => false
      | some nextIdx => scanLoop q pat validAt fuel (idx + pat.length + nextIdx)

/-- Common shape of both scanners: find a first occurrence with `strIndex`
(returning false on `-1`), then run the occurrence loop from there. -/
def scanGo (q pat : ByteStr) (validAt : Nat → Bool) (fuel : Nat) : Bool :=
  match strIndex pat q with
  | none => false
  | some idx => scanLoop q pat validAt fuel idx

/-- Model of `hasFilter(query, filterType)` (search_utils.go lines 21-62).
The scanned pattern is `filterType + ":"` (colon is byte 58). -/
def hasFilter (q ft : ByteStr) : Bool :=
  scanGo q (ft ++ [58]) (filterOccValid q (ft ++ [58]).length) (q.length + 1)

/-- Model of `hasSpecificFilter(query, filterType, filterValue)`
(search_utils.go lines 68-113).  The scanned pattern is
`filterType + ":" + filterValue`. -/
def hasSpecificFilter (q ft fv : ByteStr) : Bool :=
  scanGo q (ft ++ [58] ++ fv) (specificOccValid q (ft ++ [58] ++ fv).length) (q.length + 1)

/-- Bytes of an ASCII string literal (for ASCII text, code points and UTF-8
bytes coincide). -/
def asciiBytes (s : String) : ByteStr :=
  s.data.map Char.toNat

/-- Occurrence test: `pat` occurs in `q` starting at byte index `i`. -/
def occursAtB (pat q : ByteStr) (i : Nat) : Bool :=
  pat.isPrefixOf (q.drop i)

/-- Spec-side predicate, from the spec's *valid filter start* definition: the
occurrence begins at index 0, or the preceding byte is whitespace, or the
preceding byte is neither letter, digit, nor underscore. -/
def ValidFilterStart (q : ByteStr) (i : Nat) : Prop :=
  i = 0 ∨ isSpaceB (q.getD (i - 1) 0) = true ∨ isWordB (q.getD (i - 1) 0) = false

/-- Spec-side predicate, from the spec's valid-end rule for `key:value`
occurrences: position `e` (one past the occurrence) is the end of the string,
or holds whitespace, or holds a non-word byte. -/
def ValidFilterEnd (q : ByteStr) (e : Nat) : Prop :=
  e = q.length ∨ isSpaceB (q.getD e 0) = true ∨ isWordB (q.getD e 0) = false

/-- Spec-side predicate, from the spec's "immediately followed by at least one
non-whitespace character" rule for a bare-key occurrence of length `L` at `i`. -/
def HasValueAfter (q : ByteStr) (L i : Nat) : Prop :=
  i + L < q.length ∧ isSpaceB (q.getD (i + L) 0) = false

/-- No two occurrences of `pat` in `q` overlap: occurrences at distinct indices
are at least `pat.length` apart.  Stated with bounded quantifiers so that it is
decidable on concrete inputs. -/
def NoSelfOverlap (pat q : ByteStr) : Prop :=
  ∀ i < q.length, ∀ j < q.length,
    occursAtB pat q i = true → occursAtB pat q j = true → i < j → i + pat.length ≤ j

instance (q : ByteStr) (i : Nat) : Decidable (ValidFilterStart q i) := by
  unfold ValidFilterStart
  infer_instance

instance (q : ByteStr) (e : Nat) : Decidable (ValidFilterEnd q e) := by
  unfold ValidFilterEnd
  infer_instance

instance (q : ByteStr) (L i : Nat) : Decidable (HasValueAfter q L i) := by
  unfold HasValueAfter
  infer_instance

instance (pat q : ByteStr) : Decidable (NoSelfOverlap pat q) := by
  unfold NoSelfOverlap
  infer_instance

lemma occursAtB_iff (pat q : ByteStr) (i : Nat) :
    occursAtB pat q i = true ↔ pat <+: q.drop i := by
  simp [occursAtB]

lemma occursAt_bound {pat q : ByteStr} {i : Nat} (hp : pat ≠ [])
    (h : occursAtB pat q i = true) : i + pat.length ≤ q.length ∧ i < q.length := by
  rw [occursAtB_iff] at h
  have hlen := h.length_le
  rw [List.length_drop] at hlen
  have hpos : 0 < pat.length := List.length_pos.mpr hp
  by_cases hi : i < q.length
  · exact ⟨by omega, hi⟩
  · exfalso
    have hnil : q.drop i = [] := List.drop_eq_nil_of_le (by omega)
    rw [hnil] at h
    exact hp (List.prefix_nil.mp h)

lemma occursAt_getElem? {pat q : ByteStr} {i : Nat} (h : occursAtB pat q i = true)
    {k : Nat} (hk : k < pat.length) : q[i + k]? = pat[k]? := by
  rw [occursAtB_iff] at h
  obtain ⟨t, ht⟩ := h
  calc q[i + k]? = (q.drop i)[k]? := (List.getElem?_drop q i k).symm
    _ = (pat ++ t)[k]? := by rw [← ht]
    _ = pat[k]? := List.getElem?_append_left hk

lemma occursAt_getD {pat q : ByteStr} {i : Nat} (h : occursAtB pat q i = true)
    {k : Nat} (hk : k < pat.length) : q.getD (i + k) 0 = pat.getD k 0 := by
  simp [List.getD_eq_getElem?_getD, occursAt_getElem? h hk]

lemma occursAt_drop (pat q : ByteStr) (k m : Nat) :
    occursAtB pat (q.drop k) m = occursAtB pat q (k + m) := by
  simp [occursAtB, List.drop_drop]

lemma colon_getD (ft : ByteStr) : (ft ++ [58]).getD ft.length 0 = 58 := by
  rw [List.getD_eq_getElem?_getD, List.getElem?_append_right (Nat.le_refl _)]
  simp

lemma ft_getD_mem {ft : ByteStr} {k : Nat} (hk : k < ft.length) : ft.getD k 0 ∈ ft := by
  rw [List.getD_eq_getElem?_getD, List.getElem?_eq_getElem hk]
  exact List.getElem_mem hk

lemma append_colon_getD {ft : ByteStr} {k : Nat} (hk : k < ft.length) :
    (ft ++ [58]).getD k 0 = ft.getD k 0 := by
  simp [List.getD_eq_getElem?_getD, List.getElem?_append_left hk]

/-- Occurrences of a pattern of the shape `ft ++ [colon]`, with `ft` colon-free,
can never overlap: the colon of the earlier occurrence would have to land on a
colon-free byte of the later one. -/
lemma noOverlap_of_colonFree {ft q : ByteStr} (hft : (58 : Nat) ∉ ft) :
    ∀ i j, occursAtB (ft ++ [58]) q i = true → occursAtB (ft ++ [58]) q j = true →
      i < j → i + (ft ++ [58]).length ≤ j := by
  intro i j hi hj hij
  have hlen : (ft ++ [58] : ByteStr).length = ft.length + 1 := by simp
  by_contra hcon
  have hjle : j ≤ i + ft.length := by omega
  have hcol : q.getD (i + ft.length) 0 = 58 := by
    have h1 := occursAt_getD hi (k := ft.length) (by omega)
    rw [h1, colon_getD]
  have hklt : i + ft.length - j < ft.length := by omega
  have h2 : q.getD (j + (i + ft.length - j)) 0 = (ft ++ [58]).getD (i + ft.length - j) 0 :=
    occursAt_getD hj (by omega)
  rw [show j + (i + ft.length - j) = i + ft.length by omega, hcol,
    append_colon_getD hklt] at h2
  have hmem := ft_getD_mem hklt
  rw [← h2] at hmem
  exact hft hmem

lemma strIndex_some_occ {pat : ByteStr} : ∀ {s : ByteStr} {n : Nat},
    strIndex pat s = some n → occursAtB pat s n = true := by
  intro s
  induction s with
  | nil =>
    intro n h
    unfold strIndex at h
    split at h
    · next hp => cases h; simpa [occursAtB] using hp
    · cases h
  | cons b rest ih =>
    intro n h
    unfold strIndex at h
    split at h
    · next hp => cases h; simpa [occursAtB] using hp
    · next hp =>
      cases hm : strIndex pat rest with
      | none => rw [hm] at h; simp at h
      | some m =>
        rw [hm] at h
        simp only [Option.map_some', Option.some.injEq] at h
        have hrest := ih hm
        rw [← h, occursAtB, List.drop_succ_cons]
        exact hrest

lemma strIndex_none_no_occ {pat : ByteStr} : ∀ {s : ByteStr},
    strIndex pat s = none → ∀ m, occursAtB pat s m = false := by
  intro s
  induction s with
  | nil =>
    intro h m
    unfold strIndex at h
    split at h
    · cases h
    · next hp =>
      rw [occursAtB, List.drop_nil]
      exact Bool.eq_false_iff.mpr hp
  | cons b rest ih =>
    intro h m
    unfold strIndex at h
    split at h
    · cases h
    · next hp =>
      cases hm : strIndex pat rest with
      | some k => rw [hm] at h; simp at h
      | none =>
        match m with
        | 0 =>
          rw [occursAtB, List.drop_zero]
          exact Bool.eq_false_iff.mpr hp
        | m' + 1 =>
          rw [occursAtB, List.drop_succ_cons]
          exact ih hm m'

lemma strIndex_le_of_occ {pat : ByteStr} : ∀ {s : ByteStr} {m : Nat},
    occursAtB pat s m = true → ∃ n, strIndex pat s = some n ∧ n ≤ m := by
  intro s
  induction s with
  | nil =>
    intro m h
    rw [occursAtB, List.drop_nil] at h
    exact ⟨0, by simp [strIndex, h], Nat.zero_le m⟩
  | cons b rest ih =>
    intro m h
    by_cases hp : pat.isPrefixOf (b :: rest) = true
    · exact ⟨0, by simp [strIndex, hp], Nat.zero_le m⟩
    · match m with
      | 0 =>
        rw [occursAtB, List.drop_zero] at h
        exact absurd h hp
      | m' + 1 =>
        rw [occursAtB, List.drop_succ_cons] at h
        obtain ⟨n', hn', hle⟩ := ih h
        refine ⟨n' + 1, ?_, by omega⟩
        unfold strIndex
        rw [if_neg hp, hn']
        rfl

lemma scanLoop_sound {q pat : ByteStr} {v : Nat → Bool} :
    ∀ {fuel idx : Nat}, occursAtB pat q idx = true → scanLoop q pat v fuel idx = true →
      ∃ j, idx ≤ j ∧ occursAtB pat q j = true ∧ v j = true := by
  intro fuel
  induction fuel with
  | zero =>
    intro idx _ h
    simp [scanLoop] at h
  | succ f ih =>
    intro idx hocc h
    simp only [scanLoop] at h
    by_cases hv : v idx = true
    · exact ⟨idx, Nat.le_refl _, hocc, hv⟩
    · rw [if_neg hv] at h
      cases hm : strIndex pat (q.drop (idx + pat.length)) with
      | none => rw [hm] at h; simp at h
      | some n =>
        rw [hm] at h
        have hocc' : occursAtB pat q (idx + pat.length + n) = true := by
          have hs := strIndex_some_occ hm
          rwa [occursAt_drop] at hs
        obtain ⟨j, hj1, hj2, hj3⟩ := ih hocc' h
        exact ⟨j, by omega, hj2, hj3⟩

lemma scanLoop_complete {q pat : ByteStr} {v : Nat → Bool} (hp : pat ≠ [])
    (hno : ∀ i j, occursAtB pat q i = true → occursAtB pat q j = true → i < j →
      i + pat.length ≤ j) :
    ∀ {fuel idx : Nat}, q.length < fuel + idx → occursAtB pat q idx = true →
      (∃ j, idx ≤ j ∧ occursAtB pat q j = true ∧ v j = true) →
      scanLoop q pat v fuel idx = true := by
  intro fuel
  induction fuel with
  | zero =>
    intro idx hfuel hocc _
    have := (occursAt_bound hp hocc).2
    omega
  | succ f ih =>
    intro idx hfuel hocc hex
    simp only [scanLoop]
    by_cases hv : v idx = true
    · simp [hv]
    · rw [if_neg hv]
      obtain ⟨j, hij, hoccj, hvj⟩ := hex
      have hlt : idx < j := by
        rcases Nat.lt_or_ge idx j with h' | h'
        · exact h'
        · have : idx = j := by omega
          subst this
          exact absurd hvj hv
      have hsep : idx + pat.length ≤ j := hno _ _ hocc hoccj hlt
      have hoccd : occursAtB pat (q.drop (idx + pat.length)) (j - (idx + pat.length)) = true := by
        rw [occursAt_drop, show idx + pat.length + (j - (idx + pat.length)) = j by omega]
        exact hoccj
      obtain ⟨n, hn, hnle⟩ := strIndex_le_of_occ hoccd
      rw [hn]
      have hocc' : occursAtB pat q (idx + pat.length + n) = true := by
        have hs := strIndex_some_occ hn
        rwa [occursAt_drop] at hs
      have hplen : 0 < pat.length := List.length_pos.mpr hp
      exact ih (by omega) hocc' ⟨j, by omega, hoccj, hvj⟩

lemma scanLoop_fuel_irrel {q pat : ByteStr} {v : Nat → Bool} (hp : pat ≠ []) :
    ∀ {f g idx : Nat}, occursAtB pat q idx = true → q.length < f + idx → q.length < g + idx →
      scanLoop q pat v f idx = scanLoop q pat v g idx := by
  intro f
  induction f with
  | zero =>
    intro g idx hocc hf _
    have := (occursAt_bound hp hocc).2
    omega
  | succ f' ih =>
    intro g idx hocc hf hg
    match g with
    | 0 =>
      have := (occursAt_bound hp hocc).2
      omega
    | g' + 1 =>
      simp only [scanLoop]
      by_cases hv : v idx = true
      · simp [hv]
      · rw [if_neg hv, if_neg hv]
        cases hm : strIndex pat (q.drop (idx + pat.length)) with
        | none => rfl
        | some n =>
          have hocc' : occursAtB pat q (idx + pat.length + n) = true := by
            have hs := strIndex_some_occ hm
            rwa [occursAt_drop] at hs
          have hplen : 0 < pat.length := List.length_pos.mpr hp
          exact ih hocc' (by omega) (by omega)

lemma scanGo_sound {q pat : ByteStr} {v : Nat → Bool} {fuel : Nat}
    (h : scanGo q pat v fuel = true) :
    ∃ j, occursAtB pat q j = true ∧ v j = true := by
  unfold scanGo at h
  cases hm : strIndex pat q with
  | none => rw [hm] at h; simp at h
  | some idx =>
    rw [hm] at h
    obtain ⟨j, _, hj2, hj3⟩ := scanLoop_sound (strIndex_some_occ hm) h
    exact ⟨j, hj2, hj3⟩

lemma scanGo_complete {q pat : ByteStr} {v : Nat → Bool} {fuel : Nat} (hp : pat ≠ [])
    (hno : ∀ i j, occursAtB pat q i = true → occursAtB pat q j = true → i < j →
      i + pat.length ≤ j)
    (hfuel : q.length < fuel)
    (hex : ∃ j, occursAtB pat q j = true ∧ v j = true) :
    scanGo q pat v fuel = true := by
  obtain ⟨j, hj, hvj⟩ := hex
  obtain ⟨n, hn, hnle⟩ := strIndex_le_of_occ hj
  unfold scanGo
  rw [hn]
  exact scanLoop_complete hp hno (by omega) (strIndex_some_occ hn) ⟨j, hnle, hj, hvj⟩

lemma scanGo_fuel_irrel {q pat : ByteStr} {v : Nat → Bool} {f g : Nat} (hp : pat ≠ [])
    (hf : q.length < f) (hg : q.length < g) :
    scanGo q pat v f = scanGo q pat v g := by
  unfold scanGo
  cases hm : strIndex pat q with
  | none => rfl
  | some idx =>
    exact scanLoop_fuel_irrel hp (strIndex_some_occ hm) (by omega) (by omega)

lemma boundary_iff (b : Nat) :
    (isSpaceB b || (!isLetterB b && !isDigitB b && b != 95)) = true ↔
      (isSpaceB b = true ∨ isWordB b = false) := by
  simp only [isWordB, Bool.or_eq_true, Bool.and_eq_true, Bool.not_eq_true', bne_iff_ne,
    Bool.or_eq_false_iff, beq_eq_false_iff_ne]

lemma value_iff (q : ByteStr) (L i : Nat) :
    (decide (i + L < q.length) && !isSpaceB (q.getD (i + L) 0)) = true ↔
      HasValueAfter q L i := by
  simp [HasValueAfter, Bool.and_eq_true, Bool.not_eq_true']

lemma filterOccValid_iff (q : ByteStr) (L i : Nat) :
    filterOccValid q L i = true ↔ ValidFilterStart q i ∧ HasValueAfter q L i := by
  by_cases hi : i = 0
  · subst hi
    rw [filterOccValid]
    simp only [Nat.zero_eq, beq_self_eq_true, if_true]
    rw [value_iff]
    simp [ValidFilterStart]
  · have hbeq : (i == 0) = false := by simp [hi]
    rw [filterOccValid, hbeq]
    simp only [Bool.false_eq_true, if_false]
    by_cases hb : (isSpaceB (q.getD (i - 1) 0) ||
        (!isLetterB (q.getD (i - 1) 0) && !isDigitB (q.getD (i - 1) 0) &&
          (q.getD (i - 1) 0) != 95)) = true
    · rw [if_pos hb, value_iff]
      have hvs := (boundary_iff _).mp hb
      constructor
      · intro h
        exact ⟨Or.inr hvs, h⟩
      · intro h
        exact h.2
    · rw [if_neg hb]
      have hnb := hb
      rw [boundary_iff] at hnb
      constructor
      · intro h
        exact absurd h (by simp)
      · rintro ⟨hvs, _⟩
        rcases hvs with h0 | hs | hw
        · exact absurd h0 hi
        · exact absurd (Or.inl hs) hnb
        · exact absurd (Or.inr hw) hnb

lemma specificOccValid_iff (q : ByteStr) (L i : Nat) :
    specificOccValid q L i = true ↔ ValidFilterStart q i ∧ ValidFilterEnd q (i + L) := by
  have hstart : (if (i == 0 : Bool) then true
      else isSpaceB (q.getD (i - 1) 0) ||
        (!isLetterB (q.getD (i - 1) 0) && !isDigitB (q.getD (i - 1) 0) &&
          (q.getD (i - 1) 0) != 95)) = true ↔ ValidFilterStart q i := by
    by_cases hi : i = 0
    · subst hi
      simp [ValidFilterStart]
    · have hbeq : (i == 0) = false := by simp [hi]
      rw [hbeq]
      simp only [Bool.false_eq_true, if_false]
      rw [boundary_iff]
      unfold ValidFilterStart
      tauto
  have hend : (if (i + L == q.length : Bool) then true
      else isSpaceB (q.getD (i + L) 0) ||
        (!isLetterB (q.getD (i + L) 0) && !isDigitB (q.getD (i + L) 0) &&
          (q.getD (i + L) 0) != 95)) = true ↔ ValidFilterEnd q (i + L) := by
    by_cases he : i + L = q.length
    · simp [he, ValidFilterEnd]
    · have hbeq : (i + L == q.length) = false := by simp [he]
      rw [hbeq]
      simp only [Bool.false_eq_true, if_false]
      rw [boundary_iff]
      unfold ValidFilterEnd
      tauto
  rw [specificOccValid]
  by_cases hs : (if (i == 0 : Bool) then true
      else isSpaceB (q.getD (i - 1) 0) ||
        (!isLetterB (q.getD (i - 1) 0) && !isDigitB (q.getD (i - 1) 0) &&
          (q.getD (i - 1) 0) != 95)) = true
  · rw [hs]
    simp only [if_true]
    rw [hend]
    have hvs := hstart.mp hs
    constructor
    · intro h
      exact ⟨hvs, h⟩
    · rintro ⟨_, h⟩
      exact h
  · rw [Bool.not_eq_true] at hs
    rw [hs]
    simp only [Bool.false_eq_true, if_false]
    rw [← Bool.not_eq_true] at hs
    rw [hstart] at hs
    constructor
    · intro h
      exact absurd h (by simp)
    · rintro ⟨hvs, _⟩
      exact absurd hvs hs

lemma noSelfOverlap_unbounded {pat q : ByteStr} (hp : pat ≠ []) (h : NoSelfOverlap pat q) :
    ∀ i j, occursAtB pat q i = true → occursAtB pat q j = true → i < j →
      i + pat.length ≤ j := by
  intro i j hi hj hij
  exact h i (occursAt_bound hp hi).2 j (occursAt_bound hp hj).2 hi hj hij

/-- Full characterization of `hasFilter` for a colon-free filter type: it
returns true exactly when some occurrence of `filterType + ":"` has a valid
start and a following non-whitespace byte.  Completeness rests on
`noOverlap_of_colonFree`: the scan resumes `len(prefix)` bytes after each
examined occurrence, and for this pattern shape no occurrence can hide there. -/
lemma hasFilter_iff {q ft : ByteStr} (hft : (58 : Nat) ∉ ft) :
    hasFilter q ft = true ↔
      ∃ i, occursAtB (ft ++ [58]) q i = true ∧ ValidFilterStart q i ∧
        HasValueAfter q (ft.length + 1) i := by
  unfold hasFilter
  have hp : (ft ++ [58] : ByteStr) ≠ [] := by simp
  have hlen : (ft ++ [58] : ByteStr).length = ft.length + 1 := by simp
  constructor
  · intro h
    obtain ⟨j, hj, hvj⟩ := scanGo_sound h
    rw [filterOccValid_iff, hlen] at hvj
    exact ⟨j, hj, hvj⟩
  · rintro ⟨i, hi, hvs, hva⟩
    apply scanGo_complete hp (noOverlap_of_colonFree hft) (by omega)
    refine ⟨i, hi, ?_⟩
    rw [filterOccValid_iff, hlen]
    exact ⟨hvs, hva⟩

/-- Soundness of `hasFilter` for arbitrary filter types: a true answer always
exhibits an occurrence with a valid start and a following non-whitespace byte. -/
lemma hasFilter_sound {q ft : ByteStr} (h : hasFilter q ft = true) :
    ∃ i, occursAtB (ft ++ [58]) q i = true ∧ ValidFilterStart q i ∧
      HasValueAfter q (ft.length + 1) i := by
  unfold hasFilter at h
  obtain ⟨j, hj, hvj⟩ := scanGo_sound h
  rw [filterOccValid_iff, show ((ft ++ [58] : ByteStr)).length = ft.length + 1 by simp] at hvj
  exact ⟨j, hj, hvj.1, hvj.2⟩

lemma hasSpecific_sound {q ft fv : ByteStr} (h : hasSpecificFilter q ft fv = true) :
    ∃ i, occursAtB (ft ++ [58] ++ fv) q i = true ∧ ValidFilterStart q i ∧
      ValidFilterEnd q (i + (ft ++ [58] ++ fv).length) := by
  unfold hasSpecificFilter at h
  obtain ⟨j, hj, hvj⟩ := scanGo_sound h
  rw [specificOccValid_iff] at hvj
  exact ⟨j, hj, hvj.1, hvj.2⟩

lemma hasSpecific_complete {q ft fv : ByteStr}
    (hno : ∀ i j, occursAtB (ft ++ [58] ++ fv) q i = true →
      occursAtB (ft ++ [58] ++ fv) q j = true → i < j → i + (ft ++ [58] ++ fv).length ≤ j)
    (hex : ∃ i, occursAtB (ft ++ [58] ++ fv) q i = true ∧ ValidFilterStart q i ∧
      ValidFilterEnd q (i + (ft ++ [58] ++ fv).length)) :
    hasSpecificFilter q ft fv = true := by
  unfold hasSpecificFilter
  apply scanGo_complete (by simp) hno (by omega)
  obtain ⟨i, h1, h2, h3⟩ := hex
  refine ⟨i, h1, ?_⟩
  rw [specificOccValid_iff]
  exact ⟨h2, h3⟩

lemma word_not_space {b : Nat} (h : isWordB b = true) : isSpaceB b = false := by
  by_contra hs
  rw [Bool.not_eq_false] at hs
  simp only [isSpaceB, Bool.or_eq_true, beq_iff_eq] at hs
  rcases hs with ((((((h1 | h1) | h1) | h1) | h1) | h1) | h1) | h1 <;> subst h1 <;>
    exact absurd h (by decide)

/-- C1: for every query and every non-empty, colon-free filter type,
`hasFilter` returns true if and only if some occurrence of `filterType + ":"`
in the query starts at a valid filter start (index 0, or preceded by
whitespace, or preceded by a byte that is neither letter, digit nor underscore)
and is immediately followed by at least one non-whitespace byte; otherwise it
returns false, in particular whenever the substring never occurs, so also for
the empty query. -/
theorem c1_hasFilter_characterization (q ft : ByteStr) (h1 : ft ≠ [])
    (h2 : (58 : Nat) ∉ ft) :
    hasFilter q ft = true ↔
      ∃ i, occursAtB (ft ++ [58]) q i = true ∧ ValidFilterStart q i ∧
        HasValueAfter q (ft.length + 1) i :=
  hasFilter_iff h2

/-- Witness for C1: the characterization instantiated at query "is:open" and
filter type "is". -/
theorem c1_witness :
    ((asciiBytes "is" ≠ [] ∧ (58 : Nat) ∉ asciiBytes "is")) ∧
      (hasFilter (asciiBytes "is:open") (asciiBytes "is") = true ↔
        ∃ i, occursAtB (asciiBytes "is" ++ [58]) (asciiBytes "is:open") i = true ∧
          ValidFilterStart (asciiBytes "is:open") i ∧
          HasValueAfter (asciiBytes "is:open") ((asciiBytes "is").length + 1) i) :=
  ⟨⟨by decide, by decide⟩,
    c1_hasFilter_characterization (asciiBytes "is:open") (asciiBytes "is")
      (by decide) (by decide)⟩

/-- Counterexample to C2 as stated: with query "xa:a:a", filter type "a" and
filter value "a", the occurrence of the target "a:a" at index 3 has a valid
start (preceded by a colon) and a valid end (end of string), yet
`hasSpecificFilter` returns false: after rejecting the occurrence at index 1
(preceded by the letter x) the scan resumes at index 1 + len("a:a") = 4 and so
never examines the overlapping valid occurrence at index 3. -/
theorem c2_counterexample :
    hasSpecificFilter (asciiBytes "xa:a:a") (asciiBytes "a") (asciiBytes "a") = false ∧
      occursAtB (asciiBytes "a" ++ [58] ++ asciiBytes "a") (asciiBytes "xa:a:a") 3 = true ∧
      ValidFilterStart (asciiBytes "xa:a:a") 3 ∧
      ValidFilterEnd (asciiBytes "xa:a:a")
        (3 + (asciiBytes "a" ++ [58] ++ asciiBytes "a").length) := by
  decide

/-- C2 amended: `hasSpecificFilter` tries the occurrences of
`filterType + ":" + filterValue` from left to right but resumes the search
`len(target)` bytes past each examined occurrence, so an occurrence beginning
strictly inside an examined one is skipped.  Whenever no two occurrences of the
target in the query overlap, it returns true if and only if some occurrence has
a valid start and a valid end, and exhaustion without a match yields false. -/
theorem c2_amended_characterization (q ft fv : ByteStr) (h1 : ft ≠ [])
    (h2 : (58 : Nat) ∉ ft) (h3 : fv ≠ [])
    (hno : NoSelfOverlap (ft ++ [58] ++ fv) q) :
    hasSpecificFilter q ft fv = true ↔
      ∃ i, occursAtB (ft ++ [58] ++ fv) q i = true ∧ ValidFilterStart q i ∧
        ValidFilterEnd q (i + (ft ++ [58] ++ fv).length) := by
  constructor
  · exact hasSpecific_sound
  · exact hasSpecific_complete (noSelfOverlap_unbounded (by simp) hno)

/-- Witness for the amended C2 at query "repo:a/b is:issue", filter "is",
value "issue" (no two occurrences of "is:issue" overlap there). -/
theorem c2_witness :
    ((asciiBytes "is" ≠ [] ∧ (58 : Nat) ∉ asciiBytes "is" ∧ asciiBytes "issue" ≠ [] ∧
        NoSelfOverlap (asciiBytes "is" ++ [58] ++ asciiBytes "issue")
          (asciiBytes "repo:a/b is:issue"))) ∧
      (hasSpecificFilter (asciiBytes "repo:a/b is:issue") (asciiBytes "is")
          (asciiBytes "issue") = true ↔
        ∃ i, occursAtB (asciiBytes "is" ++ [58] ++ asciiBytes "issue")
            (asciiBytes "repo:a/b is:issue") i = true ∧
          ValidFilterStart (asciiBytes "repo:a/b is:issue") i ∧
          ValidFilterEnd (asciiBytes "repo:a/b is:issue")
            (i + (asciiBytes "is" ++ [58] ++ asciiBytes "issue").length)) :=
  ⟨⟨by decide, by decide, by decide, by decide⟩,
    c2_amended_characterization (asciiBytes "repo:a/b is:issue") (asciiBytes "is")
      (asciiBytes "issue") (by decide) (by decide) (by decide) (by decide)⟩

/-- Counterexample to C3 as stated: for `hasSpecificFilter` with query
"xis:is:is", filter type "is" and value "is", the target "is:is" occurs at
index 1 (start invalid: preceded by the letter x) and at index 4 (valid start
and valid end), yet the scanner returns false — the later valid occurrence
begins inside the examined span of the earlier invalid one and is skipped. -/
theorem c3_counterexample :
    hasSpecificFilter (asciiBytes "xis:is:is") (asciiBytes "is") (asciiBytes "is") = false ∧
      occursAtB (asciiBytes "is" ++ [58] ++ asciiBytes "is") (asciiBytes "xis:is:is") 4 = true ∧
      ValidFilterStart (asciiBytes "xis:is:is") 4 ∧
      ValidFilterEnd (asciiBytes "xis:is:is")
        (4 + (asciiBytes "is" ++ [58] ++ asciiBytes "is").length) ∧
      occursAtB (asciiBytes "is" ++ [58] ++ asciiBytes "is") (asciiBytes "xis:is:is") 1 = true ∧
      ¬ ValidFilterStart (asciiBytes "xis:is:is") 1 := by
  decide

/-- C3 amended: for `hasFilter` with a colon-free filter type the property
holds unconditionally — if any occurrence of the prefix satisfies the boundary
rules, the scanner returns true even when every earlier occurrence fails them
(occurrences of `filterType + ":"` can never overlap, so none is skipped).
For `hasSpecificFilter` it holds whenever no two occurrences of the target
overlap.  Concretely, hasFilter("xis:issue is:issue", "is") = true. -/
theorem c3_amended_any_valid_occurrence :
    (∀ (q ft : ByteStr), (58 : Nat) ∉ ft → ∀ i, occursAtB (ft ++ [58]) q i = true →
      ValidFilterStart q i → HasValueAfter q (ft.length + 1) i → hasFilter q ft = true) ∧
    (∀ (q ft fv : ByteStr), NoSelfOverlap (ft ++ [58] ++ fv) q →
      ∀ i, occursAtB (ft ++ [58] ++ fv) q i = true → ValidFilterStart q i →
        ValidFilterEnd q (i + (ft ++ [58] ++ fv).length) →
        hasSpecificFilter q ft fv = true) ∧
    hasFilter (asciiBytes "xis:issue is:issue") (asciiBytes "is") = true := by
  refine ⟨?_, ?_, by decide⟩
  · intro q ft hft i hocc hvs hva
    exact (hasFilter_iff hft).mpr ⟨i, hocc, hvs, hva⟩
  · intro q ft fv hno i hocc hvs hve
    exact hasSpecific_complete (noSelfOverlap_unbounded (by simp) hno) ⟨i, hocc, hvs, hve⟩

/-- Witness for the amended C3: the valid occurrence of "is:" at index 10 of
"xis:issue is:issue" forces a true answer although the occurrence at index 1
is invalid. -/
theorem c3_witness :
    ((58 : Nat) ∉ asciiBytes "is" ∧
      occursAtB (asciiBytes "is" ++ [58]) (asciiBytes "xis:issue is:issue") 10 = true ∧
      ValidFilterStart (asciiBytes "xis:issue is:issue") 10 ∧
      HasValueAfter (asciiBytes "xis:issue is:issue") ((asciiBytes "is").length + 1) 10) ∧
    hasFilter (asciiBytes "xis:issue is:issue") (asciiBytes "is") = true :=
  ⟨⟨by decide, by decide, by decide, by decide⟩,
    c3_amended_any_valid_occurrence.1 (asciiBytes "xis:issue is:issue") (asciiBytes "is")
      (by decide) 10 (by decide) (by decide) (by decide)⟩

/-- C4: the end-boundary rule rejects partial-value matches.  A true answer of
`hasSpecificFilter` always exhibits an occurrence with a valid end; a position
holding a word byte (letter, digit or underscore) is never a valid end; and
concretely hasSpecificFilter("is:issues", "is", "issue") = false. -/
theorem c4_end_boundary_rejects_partial_value :
    (∀ (q ft fv : ByteStr), hasSpecificFilter q ft fv = true →
      ∃ i, occursAtB (ft ++ [58] ++ fv) q i = true ∧ ValidFilterStart q i ∧
        ValidFilterEnd q (i + (ft ++ [58] ++ fv).length)) ∧
    (∀ (q : ByteStr) (e : Nat), e < q.length → isWordB (q.getD e 0) = true →
      ¬ ValidFilterEnd q e) ∧
    hasSpecificFilter (asciiBytes "is:issues") (asciiBytes "is") (asciiBytes "issue") = false := by
  refine ⟨?_, ?_, by decide⟩
  · intro q ft fv h
    exact hasSpecific_sound h
  · intro q e he hw hve
    rcases hve with h1 | h1 | h1
    · omega
    · rw [word_not_space hw] at h1
      exact Bool.noConfusion h1
    · rw [hw] at h1
      exact Bool.noConfusion h1

/-- Witness for C4: position 8 of "is:issues" holds the word byte s and is not
a valid filter end. -/
theorem c4_witness :
    (8 < (asciiBytes "is:issues").length ∧
      isWordB ((asciiBytes "is:issues").getD 8 0) = true) ∧
      ¬ ValidFilterEnd (asciiBytes "is:issues") 8 :=
  ⟨⟨by decide, by decide⟩,
    c4_end_boundary_rejects_partial_value.2.1 (asciiBytes "is:issues") 8
      (by decide) (by decide)⟩

/-- C5: the start-boundary rule rejects an occurrence preceded by a word byte
and accepts one preceded by punctuation; concretely
hasFilter("dis:issue bug", "is") = false and hasFilter("(is:issue)", "is") = true. -/
theorem c5_start_boundary_word_vs_punctuation :
    (∀ (q : ByteStr) (i : Nat), i ≠ 0 → isWordB (q.getD (i - 1) 0) = true →
      ¬ ValidFilterStart q i) ∧
    hasFilter (asciiBytes "dis:issue bug") (asciiBytes "is") = false ∧
    hasFilter (asciiBytes "(is:issue)") (asciiBytes "is") = true := by
  refine ⟨?_, by decide, by decide⟩
  intro q i hi hw hvs
  rcases hvs with h1 | h1 | h1
  · exact hi h1
  · rw [word_not_space hw] at h1
    exact Bool.noConfusion h1
  · rw [hw] at h1
    exact Bool.noConfusion h1

/-- Witness for C5: index 1 of "dis:issue bug" is preceded by the letter d and
is not a valid filter start. -/
theorem c5_witness :
    ((1 : Nat) ≠ 0 ∧ isWordB ((asciiBytes "dis:issue bug").getD 0 0) = true) ∧
      ¬ ValidFilterStart (asciiBytes "dis:issue bug") 1 :=
  ⟨⟨by decide, by decide⟩,
    c5_start_boundary_word_vs_punctuation.1 (asciiBytes "dis:issue bug") 1
      (by decide) (by decide)⟩

/-- C6: an occurrence of `filterType + ":"` with no value attached never makes
`hasFilter` return true.  A true answer always exhibits an occurrence followed
by a non-whitespace byte; an occurrence whose colon is the last byte, or is
followed by whitespace, fails that test; concretely
hasFilter("label:is: ", "is") = false; and in a query ending exactly in
`filterType + ":"` the final occurrence never counts. -/
theorem c6_dangling_colon_rejected :
    (∀ (q ft : ByteStr), hasFilter q ft = true →
      ∃ i, occursAtB (ft ++ [58]) q i = true ∧ ValidFilterStart q i ∧
        HasValueAfter q (ft.length + 1) i) ∧
    (∀ (q : ByteStr) (L i : Nat),
      (q.length ≤ i + L ∨ isSpaceB (q.getD (i + L) 0) = true) → ¬ HasValueAfter q L i) ∧
    hasFilter (asciiBytes "label:is: ") (asciiBytes "is") = false ∧
    (∀ (q' ft : ByteStr), ¬ HasValueAfter (q' ++ (ft ++ [58])) (ft.length + 1) q'.length) := by
  refine ⟨?_, ?_, by decide, ?_⟩
  · intro q ft h
    exact hasFilter_sound h
  · intro q L i hrej hva
    obtain ⟨hlt, hsp⟩ := hva
    rcases hrej with h | h
    · omega
    · rw [h] at hsp
      exact Bool.noConfusion hsp
  · intro q' ft hva
    obtain ⟨hlt, _⟩ := hva
    simp only [List.length_append, List.length_cons, List.length_nil] at hlt
    omega

/-- Witness for C6: in "label:is: " the occurrence of "is:" at index 6 is
followed by whitespace, so it has no value attached. -/
theorem c6_witness :
    ((asciiBytes "label:is: ").length ≤ 6 + 3 ∨
      isSpaceB ((asciiBytes "label:is: ").getD (6 + 3) 0) = true) ∧
      ¬ HasValueAfter (asciiBytes "label:is: ") 3 6 :=
  ⟨by decide, c6_dangling_colon_rejected.2.1 (asciiBytes "label:is: ") 3 6 (by decide)⟩

/-- C7: both scanners are total.  The Go scan loops advance the occurrence
index by at least one byte per iteration, so they need at most
`query.length + 1` iterations: any iteration budget beyond `query.length`
produces the value the functions return, for every input, including degenerate
ones. -/
theorem c7_scanners_terminate (q ft fv : ByteStr) (fuel : Nat) (h : q.length < fuel) :
    scanGo q (ft ++ [58]) (filterOccValid q (ft ++ [58]).length) fuel = hasFilter q ft ∧
    scanGo q (ft ++ [58] ++ fv) (specificOccValid q (ft ++ [58] ++ fv).length) fuel =
      hasSpecificFilter q ft fv := by
  constructor
  · unfold hasFilter
    exact scanGo_fuel_irrel (by simp) h (by omega)
  · unfold hasSpecificFilter
    exact scanGo_fuel_irrel (by simp) h (by omega)

/-- Witness for C7 at query "is:x" with iteration budget 9. -/
theorem c7_witness :
    ((asciiBytes "is:x").length < 9) ∧
      (scanGo (asciiBytes "is:x") (asciiBytes "is" ++ [58])
          (filterOccValid (asciiBytes "is:x") (asciiBytes "is" ++ [58]).length) 9 =
        hasFilter (asciiBytes "is:x") (asciiBytes "is") ∧
      scanGo (asciiBytes "is:x") (asciiBytes "is" ++ [58] ++ asciiBytes "x")
          (specificOccValid (asciiBytes "is:x")
            (asciiBytes "is" ++ [58] ++ asciiBytes "x").length) 9 =
        hasSpecificFilter (asciiBytes "is:x") (asciiBytes "is") (asciiBytes "x")) :=
  ⟨by decide, c7_scanners_terminate (asciiBytes "is:x") (asciiBytes "is") (asciiBytes "x")
    9 (by decide)⟩

/-- C8: both scanners are deterministic pure functions of their arguments.  In
this embedding the functions are pure by construction; moreover two runs of the
scanning loop with independently chosen (sufficient) iteration budgets return
the same boolean, and repeated invocation on the same input is the same value. -/
theorem c8_deterministic (q ft fv : ByteStr) (f g : Nat) (hf : q.length < f)
    (hg : q.length < g) :
    scanGo q (ft ++ [58]) (filterOccValid q (ft ++ [58]).length) f =
      scanGo q (ft ++ [58]) (filterOccValid q (ft ++ [58]).length) g ∧
    scanGo q (ft ++ [58] ++ fv) (specificOccValid q (ft ++ [58] ++ fv).length) f =
      scanGo q (ft ++ [58] ++ fv) (specificOccValid q (ft ++ [58] ++ fv).length) g ∧
    hasFilter q ft = hasFilter q ft ∧
    hasSpecificFilter q ft fv = hasSpecificFilter q ft fv :=
  ⟨scanGo_fuel_irrel (by simp) hf hg, scanGo_fuel_irrel (by simp) hf hg, rfl, rfl⟩

/-- Witness for C8 at query "(is:issue)" with budgets 11 and 12. -/
theorem c8_witness :
    ((asciiBytes "(is:issue)").length < 11 ∧ (asciiBytes "(is:issue)").length < 12) ∧
      (scanGo (asciiBytes "(is:issue)") (asciiBytes "is" ++ [58])
          (filterOccValid (asciiBytes "(is:issue)") (asciiBytes "is" ++ [58]).length) 11 =
        scanGo (asciiBytes "(is:issue)") (asciiBytes "is" ++ [58])
          (filterOccValid (asciiBytes "(is:issue)") (asciiBytes "is" ++ [58]).length) 12 ∧
      scanGo (asciiBytes "(is:issue)") (asciiBytes "is" ++ [58] ++ asciiBytes "issue")
          (specificOccValid (asciiBytes "(is:issue)")
            (asciiBytes "is" ++ [58] ++ asciiBytes "issue").length) 11 =
        scanGo (asciiBytes "(is:issue)") (asciiBytes "is" ++ [58] ++ asciiBytes "issue")
          (specificOccValid (asciiBytes "(is:issue)")
            (asciiBytes "is" ++ [58] ++ asciiBytes "issue").length) 12 ∧
      hasFilter (asciiBytes "(is:issue)") (asciiBytes "is") =
        hasFilter (asciiBytes "(is:issue)") (asciiBytes "is") ∧
      hasSpecificFilter (asciiBytes "(is:issue)") (asciiBytes "is") (asciiBytes "issue") =
        hasSpecificFilter (asciiBytes "(is:issue)") (asciiBytes "is") (asciiBytes "issue")) :=
  ⟨⟨by decide, by decide⟩,
    c8_deterministic (asciiBytes "(is:issue)") (asciiBytes "is") (asciiBytes "issue")
      11 12 (by decide) (by decide)⟩

/-- C9: boundary classification is done on single bytes, not decoded Unicode
characters.  In a query whose "is:" occurrence is preceded by the two-byte
UTF-8 letter é (bytes 195, 169), `hasFilter` returns true: the preceding byte
169 is not a Latin-1 letter, digit or underscore, although é itself (code
point 233) is a letter, so a character-level word-boundary rule would reject
the occurrence.  Symmetrically, the three-byte UTF-8 whitespace EN SPACE
(bytes 226, 128, 130) after the colon does not count as whitespace — the byte
226 read there is not a space byte — so the occurrence still counts as having
a value attached. -/
theorem c9_byte_level_boundary_classification :
    hasFilter (195 :: 169 :: asciiBytes "is:x") (asciiBytes "is") = true ∧
    isLetterB 233 = true ∧
    isLetterB 169 = false ∧
    hasFilter (asciiBytes "is:" ++ [226, 128, 130]) (asciiBytes "is") = true ∧
    isSpaceB 226 = false := by
  decide

/-- C10: for a non-empty colon-free filter type and a non-empty filter value
whose first byte is not whitespace, every query on which `hasSpecificFilter`
returns true also makes `hasFilter` return true: the matched occurrence of the
target yields an occurrence of `filterType + ":"` with the same valid start,
followed by the value's non-whitespace first byte. -/
theorem c10_specific_implies_presence (q ft fv : ByteStr) (h1 : ft ≠ [])
    (h2 : (58 : Nat) ∉ ft) (h3 : fv ≠ []) (h4 : isSpaceB (fv.getD 0 0) = false)
    (h : hasSpecificFilter q ft fv = true) : hasFilter q ft = true := by
  obtain ⟨i, hocc, hvs, hve⟩ := hasSpecific_sound h
  apply (hasFilter_iff h2).mpr
  have htlen : (ft ++ [58] ++ fv : ByteStr).length = ft.length + 1 + fv.length := by
    simp only [List.length_append, List.length_cons, List.length_nil]
  have hfvpos : 0 < fv.length := List.length_pos.mpr h3
  have hb := occursAt_bound (show (ft ++ [58] ++ fv : ByteStr) ≠ [] by simp) hocc
  rw [htlen] at hb
  refine ⟨i, ?_, hvs, ?_, ?_⟩
  · rw [occursAtB_iff] at hocc ⊢
    exact (List.prefix_append (ft ++ [58]) fv).trans hocc
  · omega
  · have hk : ft.length + 1 < (ft ++ [58] ++ fv : ByteStr).length := by
      rw [htlen]
      omega
    have hgd := occursAt_getD hocc hk
    rw [hgd]
    have hfirst : (ft ++ [58] ++ fv : ByteStr).getD (ft.length + 1) 0 = fv.getD 0 0 := by
      rw [List.getD_eq_getElem?_getD,
        List.getElem?_append_right (show (ft ++ [58] : ByteStr).length ≤ ft.length + 1 by simp)]
      simp [List.getD_eq_getElem?_getD]
    rw [hfirst]
    exact h4

/-- Witness for C10 at query "is:issue", filter "is", value "issue". -/
theorem c10_witness :
    (asciiBytes "is" ≠ [] ∧ (58 : Nat) ∉ asciiBytes "is" ∧ asciiBytes "issue" ≠ [] ∧
      isSpaceB ((asciiBytes "issue").getD 0 0) = false ∧
      hasSpecificFilter (asciiBytes "is:issue") (asciiBytes "is") (asciiBytes "issue") = true) ∧
    hasFilter (asciiBytes "is:issue") (asciiBytes "is") = true :=
  ⟨⟨by decide, by decide, by decide, by decide, by decide⟩,
    c10_specific_implies_presence (asciiBytes "is:issue") (asciiBytes "is")
      (asciiBytes "issue") (by decide) (by decide) (by decide) (by decide) (by decide)⟩

end SearchUtils
